import Mathlib

/-!
Verification development for the ACVM witness-generation solver
(`acvm/src/lib.rs`).

The solver is shallowly embedded: field elements are `ZMod p` for a
modulus `p` (the source works over an external `FieldElement` prime
field type; the big integer obtained from its big-endian byte encoding
is the canonical value, written `val` here), the
`BTreeMap<Witness, FieldElement>` witness map is an association list
with unique keys observed through `wget` and `winsert`, and the
recursive `solve` loop is given explicit fuel (`solveFuel`) because the
source recursion carries no termination guard of its own, so a run that
exhausts every fuel bound models a non-terminating run.  Rust panics
(bigint division by zero in `Directive::Quotient`, out-of-bounds `Vec`
indexing in `Directive::Split` and `Directive::ToBytes`) are modelled by
explicit `abort` results.

The modules `pwg::arithmetic` and `pwg::logic` are declared but their
bodies are not part of the analyzed sources; `arithmeticSolve` and
`solveLogicGate` below are modelled from the spec (sections 4.2 and 4.3)
and are marked as such.
-/

namespace Acvm

variable {p : ℕ}

/-- Witness identifier (`acir::native_types::Witness`). -/
abbrev Witness := Nat

/-- Bit length of a natural number computed with explicit fuel so that
it reduces by kernel computation; `bitLenAux fuel n` is the bit length
of `n` whenever `n ≤ fuel`. -/
def bitLenAux : Nat → Nat → Nat
  | 0, _ => 0
  | fuel + 1, n => if n = 0 then 0 else bitLenAux fuel (n / 2) + 1

/-- Bit length of `n` (position of the highest set bit plus one, with
`bitLen 0 = 0`).  Models the external `FieldElement::num_bits` query on
the canonical integer value of a field element. -/
def bitLen (n : Nat) : Nat := bitLenAux n n

/-- Witness map `BTreeMap<Witness, FieldElement>`, modelled as an
association list with unique keys. -/
abbrev WMap (p : ℕ) := List (Witness × ZMod p)

/-- Lookup in the witness map (`BTreeMap::get`). -/
def wget : WMap p → Witness → Option (ZMod p)
  | [], _ => none
  | (k, v) :: t, x => if x = k then some v else wget t x

/-- Insertion into the witness map (`BTreeMap::insert`): replaces the
value of an existing key in place, otherwise appends the new binding. -/
def winsert (k : Witness) (v : ZMod p) : WMap p → WMap p
  | [] => [(k, v)]
  | (k', v') :: t => if k = k' then (k, v) :: t else (k', v') :: winsert k v t

/-- Black-box gadget opcodes (`acir::OPCODE`); the solver distinguishes
`RANGE`, `AND` and `XOR`, every other opcode is routed to the backend,
so the remaining opcodes are collapsed into one numbered constructor. -/
inductive OPCODE
  | RANGE
  | AND
  | XOR
  | Other (id : Nat)
  deriving DecidableEq

/-- Single input of a gadget call (`acir` gadget input: a witness plus
its declared bit width). -/
structure GadgetInput where
  witness : Witness
  num_bits : Nat
  deriving DecidableEq

/-- Black-box gadget call (`acir::circuit::gate::GadgetCall`). -/
structure GadgetCall where
  name : OPCODE
  inputs : List GadgetInput
  outputs : List Witness
  deriving DecidableEq

/-- Expressions (`acir::native_types::Expression`): a constant, linear
terms `(coeff, witness)` and quadratic terms `(coeff, witness, witness)`. -/
structure Expression (p : ℕ) where
  q_c : ZMod p
  linear_combinations : List (ZMod p × Witness)
  mul_terms : List (ZMod p × Witness × Witness)
  deriving DecidableEq

/-- Constant-one expression (`Expression::one()`), the default predicate
of a `Quotient` directive. -/
def Expression.one : Expression p := ⟨1, [], []⟩

/-- Directives (`acir::circuit::directives::Directive`), the
non-constraining hints evaluated by the solver. -/
inductive Directive (p : ℕ)
  | Invert (x : Witness) (result : Witness)
  | Quotient (a b : Expression p) (q r : Witness) (predicate : Option (Expression p))
  | Truncate (a : Witness) (b c : Witness) (bit_size : Nat)
  | Split (a : Expression p) (b : List Witness) (bit_size : Nat)
  | ToBytes (a : Expression p) (b : List Witness) (byte_size : Nat)
  | Oddrange (a : Witness) (b r : Witness) (bit_size : Nat)
  deriving DecidableEq

/-- Circuit gates (`acir::circuit::Gate`). -/
inductive Gate (p : ℕ)
  | Arithmetic (e : Expression p)
  | GadgetCall (gc : GadgetCall)
  | Directive (d : Directive p)
  deriving DecidableEq

/-- Result type returned by `solve` (`GateResolution` in the source).
Note that the enum has no constructor for a stalled circuit. -/
inductive GateResolution
  | Resolved
  | Skip
  | UnknownError (msg : String)
  | UnsupportedOpcode (op : OPCODE)
  | UnsatisfiedConstrain
  deriving DecidableEq

/-- Outcome of handling one gate inside the solving pass: `proceed`
continues the pass (the flag records whether the gate stays unsolved),
`halt` is an early `return result` from `solve`, and `abort` models a
Rust panic. -/
inductive GateOut (p : ℕ)
  | proceed (unsolved : Bool) (w : WMap p)
  | halt (r : GateResolution) (w : WMap p)
  | abort (w : WMap p)
  deriving DecidableEq

/-- Outcome of the `Split`/`ToBytes` assignment loops: `ok` completed,
`fail` hit a conflicting existing assignment (`UnsatisfiedConstrain`),
`abort` models an out-of-bounds `Vec` index panic. -/
inductive DirOut (p : ℕ)
  | ok (w : WMap p)
  | fail (w : WMap p)
  | abort (w : WMap p)
  deriving DecidableEq

/-- Outcome of one full pass over the gate list. -/
inductive PassOut (p : ℕ)
  | ok (w : WMap p) (unsolved : List (Gate p))
  | halt (r : GateResolution) (w : WMap p)
  | abort (w : WMap p)
  deriving DecidableEq

/-- Terminal outcome of the whole solving attempt: either a
`GateResolution` as returned by the source `solve`, or a panic. -/
inductive SolveOut (p : ℕ)
  | done (r : GateResolution) (w : WMap p)
  | panicked (w : WMap p)
  deriving DecidableEq

/-- Backend capability interface: the caller-supplied
`solve_gadget_call` used for gadget calls beyond RANGE/AND/XOR; it may
update the witness map or report the opcode as unsupported. -/
structure Backend (p : ℕ) where
  solve_gadget_call : WMap p → GadgetCall → Except OPCODE (WMap p)

/-- Backend supporting no extra opcode at all: every dispatched gadget
call is reported unsupported.  Used to instantiate theorems on concrete
circuits that never reach the backend. -/
def noBackend : Backend p := ⟨fun _ gc => .error gc.name⟩

/-- Linear part of `get_value`: fold the linear terms over an
accumulator, returning `none` as soon as a referenced witness is
missing (the early `return None` of the source). -/
def get_valueLin (w : WMap p) : ZMod p → List (ZMod p × Witness) → Option (ZMod p)
  | acc, [] => some acc
  | acc, (c, wi) :: t =>
    match wget w wi with
    | some f => get_valueLin w (acc + c * f) t
    | none => none

/-- Quadratic part of `get_value`: fold the mul terms, returning `none`
as soon as a referenced witness is missing. -/
def get_valueMul (w : WMap p) : ZMod p → List (ZMod p × Witness × Witness) → Option (ZMod p)
  | acc, [] => some acc
  | acc, (c, u, v) :: t =>
    match wget w u, wget w v with
    | some f, some g => get_valueMul w (acc + c * f * g) t
    | _, _ => none

/-- Expression evaluator `PartialWitnessGenerator::get_value`: starting
from the constant `q_c`, accumulate every linear and every mul term,
failing with `none` if any referenced witness is unassigned. -/
def get_value (a : Expression p) (w : WMap p) : Option (ZMod p) :=
  match get_valueLin w a.q_c a.linear_combinations with
  | some r1 => get_valueMul w r1 a.mul_terms
  | none => none

/-- Predicate stating that every witness referenced by the expression is
present in the witness map. -/
def allKnown (a : Expression p) (w : WMap p) : Prop :=
  (∀ t ∈ a.linear_combinations, (wget w t.2).isSome = true) ∧
  (∀ t ∈ a.mul_terms, (wget w t.2.1).isSome = true ∧ (wget w t.2.2).isSome = true)

instance (a : Expression p) (w : WMap p) : Decidable (allKnown a w) := by
  unfold allKnown; exact inferInstance

/-- Total lookup used to phrase the value computed by `get_value`. -/
def lookup0 (w : WMap p) (x : Witness) : ZMod p := (wget w x).getD 0

/-- Sum denoted by an expression for a given total witness valuation:
constant plus linear terms plus quadratic terms. -/
def exprSum (a : Expression p) (f : Witness → ZMod p) : ZMod p :=
  a.q_c + (a.linear_combinations.map fun t => t.1 * f t.2).sum
    + (a.mul_terms.map fun t => t.1 * f t.2.1 * f t.2.2).sum

/-- Modelled from the spec: `pwg::arithmetic::ArithmeticSolver::solve`
(module `pwg` is declared but its body is not among the analyzed
sources).  Spec 4.2: attempt full evaluation; fully evaluable and zero
is `Resolved`, fully evaluable and nonzero is `UnsatisfiedConstrain`,
not fully evaluable is `Skip`. -/
def arithmeticSolve (w : WMap p) (e : Expression p) : GateResolution :=
  match get_value e w with
  | some v => if v = 0 then .Resolved else .UnsatisfiedConstrain
  | none => .Skip

/-- Byte length of the fixed-width big-endian `FieldElement::to_bytes`
serialization: the bit length of the modulus rounded up to whole bytes
(32 bytes for the 254-bit BN254 modulus of the source). -/
def fieldByteLen (p : ℕ) : ℕ := (bitLen p + 7) / 8

/-- Byte `i` of the reversed (hence little-endian) byte serialization of
a field element: valid for `i < fieldByteLen p`, where it equals byte
`i` of the little-endian representation of the canonical value. -/
def leByte (va : ZMod p) (i : ℕ) : ℕ := va.val / 256 ^ i % 256

/-- Modelled from the spec: `pwg::logic::LogicSolver::solve_and_gate`
and `solve_xor_gate` (module `pwg` is declared but its body is not among
the analyzed sources).  Spec 4.3: with both input witnesses assigned,
bit-decompose each input value to its declared bit width, combine
bitwise, recompose and assign the output witness, reporting the gate
solved; with an input missing report it unsolved; a malformed shape is a
panic. -/
def solveLogicGate (op : Nat → Nat → Nat) (w : WMap p) (gc : GadgetCall) : GateOut p :=
  match gc.inputs, gc.outputs with
  | [i1, i2], [out] =>
    match wget w i1.witness, wget w i2.witness with
    | some v1, some v2 =>
      let x := v1.val % 2 ^ i1.num_bits
      let y := v2.val % 2 ^ i2.num_bits
      .proceed false (winsert out ((op x y : ℕ) : ZMod p) w)
    | _, _ => .proceed true w
  | _, _ => .abort w

/-- Assignment loop of `Directive::Split`: for `k` remaining indices
starting at `i`, assign bit `i` of `a_big` to witness `b[i]`; a vacant
entry is inserted, an equal occupied entry is kept, a different occupied
entry is an `UnsatisfiedConstrain` (`fail`), and an out-of-bounds index
into `b` is a panic (`abort`). -/
def splitGo (a_big : ℕ) (b : List Witness) : ℕ → ℕ → WMap p → DirOut p
  | 0, _, w => .ok w
  | k + 1, i, w =>
    match b.get? i with
    | none => .abort w
    | some bw =>
      let v : ZMod p := if a_big.testBit i then 1 else 0
      match wget w bw with
      | none => splitGo a_big b k (i + 1) (winsert bw v w)
      | some v' => if v' = v then splitGo a_big b k (i + 1) w else .fail w

/-- Assignment loop of `Directive::ToBytes`: the source reverses the
big-endian `to_bytes` serialization of `a` and assigns `a_bytes[i]` to
`b[i]`, so witness `b[i]` receives byte `i` of the little-endian
representation (`leByte`); the serialization index must stay below
`fieldByteLen p` and the output index below the length of `b`, otherwise
the source indexing panics (`abort`); conflicts are handled as in
`splitGo`. -/
def toBytesGo (va : ZMod p) (b : List Witness) : ℕ → ℕ → WMap p → DirOut p
  | 0, _, w => .ok w
  | k + 1, i, w =>
    if i < fieldByteLen p then
      match b.get? i with
      | none => .abort w
      | some bw =>
        let v : ZMod p := ((leByte va i : ℕ) : ZMod p)
        match wget w bw with
        | none => toBytesGo va b k (i + 1) (winsert bw v w)
        | some v' => if v' = v then toBytesGo va b k (i + 1) w else .fail w
    else .abort w

/-- Directive handling of `solve`, one arm per `Directive` variant,
following the source line by line.  `BigUint::from_bytes_be(x.to_bytes())`
is the canonical value `val`; `FieldElement::from_be_bytes_reduce` is
the cast of a natural number into `ZMod p`; the unguarded `%` and `/` of
`Quotient` panic on a zero divisor (`abort`). -/
def solveDirective (w : WMap p) (d : Directive p) : GateOut p :=
  match d with
  | .Invert x result =>
    match wget w x with
    | none => .proceed true w
    | some val => .proceed false (winsert result val⁻¹ w)
  | .Quotient a b q r predicate =>
    match get_value a w, get_value b w with
    | some val_a, some val_b =>
      let int_a := val_a.val
      let int_b := val_b.val
      let pred := predicate.getD Expression.one
      match get_value pred w with
      | some pred_value =>
        if pred_value = 0 then
          .proceed false (winsert r ((0 : ℕ) : ZMod p) (winsert q ((0 : ℕ) : ZMod p) w))
        else if int_b = 0 then .abort w
        else
          .proceed false
            (winsert r ((int_a % int_b : ℕ) : ZMod p)
              (winsert q ((int_a / int_b : ℕ) : ZMod p) w))
      | none => .proceed true w
    | _, _ => .proceed true w
  | .Truncate a b c bit_size =>
    match wget w a with
    | some val_a =>
      let int_a := val_a.val
      let int_b := int_a % 2 ^ bit_size
      let int_c := (int_a - int_b) / 2 ^ bit_size
      .proceed false (winsert c ((int_c : ℕ) : ZMod p) (winsert b ((int_b : ℕ) : ZMod p) w))
    | none => .proceed true w
  | .Split a b bit_size =>
    match get_value a w with
    | some val_a =>
      match splitGo val_a.val b bit_size 0 w with
      | .ok w' => .proceed false w'
      | .fail w' => .halt .UnsatisfiedConstrain w'
      | .abort w' => .abort w'
    | none => .proceed true w
  | .ToBytes a b byte_size =>
    match get_value a w with
    | some val_a =>
      match toBytesGo val_a b byte_size 0 w with
      | .ok w' => .proceed false w'
      | .fail w' => .halt .UnsatisfiedConstrain w'
      | .abort w' => .abort w'
    | none => .proceed true w
  | .Oddrange a b r bit_size =>
    match wget w a with
    | some val_a =>
      let int_a := val_a.val
      let pow := 2 ^ (bit_size - 1)
      if 2 * pow ≤ int_a then .halt .UnsatisfiedConstrain w
      else
        let bb := int_a &&& pow
        let int_r := int_a - bb
        let int_b := bb >>> (bit_size - 1)
        .proceed false (winsert r ((int_r : ℕ) : ZMod p) (winsert b ((int_b : ℕ) : ZMod p) w))
    | none => .proceed true w

/-- Handling of one gate inside the loop body of `solve`: the arms and
their order follow the source `match &gate`.  The `RANGE` case first
checks the declared fixed input size (which is 1 for `RANGE` per the
opcode definition); a wrong arity is the `UnknownError` early return,
and the range check itself never writes a witness. -/
def solveGate (B : Backend p) (w : WMap p) (g : Gate p) : GateOut p :=
  match g with
  | .Arithmetic arith =>
    match arithmeticSolve w arith with
    | .Resolved => .proceed false w
    | .Skip => .proceed true w
    | r => .halt r w
  | .GadgetCall gc =>
    if gc.name = .RANGE then
      match gc.inputs with
      | [input] =>
        match wget w input.witness with
        | some v =>
          if input.num_bits < bitLen v.val then .halt .UnsatisfiedConstrain w
          else .proceed false w
        | none => .proceed true w
      | _ => .halt (.UnknownError "defined input size does not equal given input size") w
    else if gc.name = .AND then
      solveLogicGate (fun x y => x &&& y) w gc
    else if gc.name = .XOR then
      solveLogicGate (fun x y => x ^^^ y) w gc
    else
      if gc.inputs.all fun i => (wget w i.witness).isSome then
        match B.solve_gadget_call w gc with
        | .ok w' => .proceed false w'
        | .error op => .halt (.UnsupportedOpcode op) w
      else .proceed true w
  | .Directive d => solveDirective w d

/-- One pass of `solve` over the gate list: gates are handled in order,
unsolved gates are collected in their original relative order, and a
`halt` or `abort` from any gate ends the pass (and the whole solve)
immediately with the witness map as mutated so far. -/
def solve_pass (B : Backend p) : WMap p → List (Gate p) → PassOut p
  | w, [] => .ok w []
  | w, g :: gs =>
    match solveGate B w g with
    | .proceed unsolved w' =>
      match solve_pass B w' gs with
      | .ok w'' rest => .ok w'' (if unsolved then g :: rest else rest)
      | .halt r w'' => .halt r w''
      | .abort w'' => .abort w''
    | .halt r w' => .halt r w'
    | .abort w' => .abort w'

/-- Fuelled form of `PartialWitnessGenerator::solve`: an empty gate list
is `Resolved`, otherwise run one pass and recurse on the collected
unsolved gates exactly as the source recursion does.  The source has no
stall detection, so the recursion itself carries no termination
argument; `none` means the given fuel bound was exhausted, and a run
returning `none` for every fuel is a non-terminating run of the
source. -/
def solveFuel (B : Backend p) : ℕ → WMap p → List (Gate p) → Option (SolveOut p)
  | 0, _, _ => none
  | fuel + 1, w, gates =>
    if gates.isEmpty then some (.done .Resolved w)
    else
      match solve_pass B w gates with
      | .ok w' unsolved => solveFuel B fuel w' unsolved
      | .halt r w' => some (.done r w')
      | .abort w' => some (.panicked w')

/-- Supported NP-complete languages (`Language` in the source). -/
inductive Language
  | R1CS
  | PLONKCSat (width : Nat)
  deriving DecidableEq

/-- Gate-support classification `CustomGate::supports_gate for Language`,
translated from the source: a boolean `is_supported_gate` true exactly
for RANGE/AND/XOR gadget calls, a boolean `is_r1cs`, and the result
`!(is_supported_gate | is_r1cs)`. -/
def Language.supports_gate (lang : Language) (gate : Gate p) : Bool :=
  let is_supported_gate :=
    match gate with
    | Gate.GadgetCall gc =>
      decide (gc.name = OPCODE.RANGE) || decide (gc.name = OPCODE.AND)
        || decide (gc.name = OPCODE.XOR)
    | Gate.Arithmetic _ => false
    | Gate.Directive _ => false
  let is_r1cs :=
    match lang with
    | Language.R1CS => true
    | Language.PLONKCSat _ => false
  !(is_supported_gate || is_r1cs)


/-- Lookup after insertion at the same key: `winsert` replaces any
existing binding, so the lookup returns the new value. -/
theorem wget_winsert_self (k : Witness) (v : ZMod p) :
    ∀ m : WMap p, wget (winsert k v m) k = some v := by
  intro m
  induction m with
  | nil => simp [winsert, wget]
  | cons hd t ih =>
    obtain ⟨k', v'⟩ := hd
    by_cases hk : k = k'
    · subst hk; simp [winsert, wget]
    · simp [winsert, hk, wget, ih]

/-- Lookup after insertion at a different key is unchanged. -/
theorem wget_winsert_ne (k : Witness) (v : ZMod p) (x : Witness) (hx : x ≠ k) :
    ∀ m : WMap p, wget (winsert k v m) x = wget m x := by
  intro m
  induction m with
  | nil => simp [winsert, wget, hx]
  | cons hd t ih =>
    obtain ⟨k', v'⟩ := hd
    by_cases hk : k = k'
    · subst hk; simp [winsert, wget, hx]
    · simp [winsert, hk, wget, ih]

/-- Characterization of `bitLenAux` for sufficient fuel: the bit length
is at most `m` exactly when the number is below `2 ^ m`. -/
theorem bitLenAux_le_iff :
    ∀ (fuel n m : ℕ), n ≤ fuel → (bitLenAux fuel n ≤ m ↔ n < 2 ^ m) := by
  intro fuel
  induction fuel with
  | zero =>
    intro n m hn
    have h0 : n = 0 := Nat.le_zero.mp hn
    subst h0
    simp [bitLenAux]
  | succ f ih =>
    intro n m hn
    by_cases h0 : n = 0
    · subst h0
      simp [bitLenAux]
    · simp only [bitLenAux, h0, if_false]
      cases m with
      | zero =>
        simp only [pow_zero, Nat.lt_one_iff]
        constructor <;> intro hh <;> omega
      | succ m' =>
        rw [Nat.succ_le_succ_iff, ih (n / 2) m' (by omega), pow_succ,
          Nat.div_lt_iff_lt_mul (by norm_num : (0 : ℕ) < 2)]

/-- Semantic meaning of `bitLen`: it is at most `m` exactly when the
number is below `2 ^ m`, as expected of a bit-length query. -/
theorem bitLen_le_iff (n m : ℕ) : bitLen n ≤ m ↔ n < 2 ^ m :=
  bitLenAux_le_iff n n m le_rfl

/-- Characterization of the linear fold of `get_value`: it succeeds
exactly when every referenced witness is present, and then computes the
accumulator plus the sum of the linear terms. -/
theorem get_valueLin_some_iff (w : WMap p) :
    ∀ (l : List (ZMod p × Witness)) (acc v : ZMod p),
      get_valueLin w acc l = some v ↔
        (∀ t ∈ l, (wget w t.2).isSome = true) ∧
          v = acc + (l.map fun t => t.1 * lookup0 w t.2).sum := by
  intro l
  induction l with
  | nil =>
    intro acc v
    simp only [get_valueLin]
    constructor
    · intro h
      injection h with h
      exact ⟨by simp, by simp [h]⟩
    · rintro ⟨-, hv⟩
      simp at hv
      rw [hv]
  | cons hd t ih =>
    intro acc v
    obtain ⟨c, wi⟩ := hd
    cases hw : wget w wi with
    | none => simp [get_valueLin, hw]
    | some f =>
      simp only [get_valueLin, hw]
      rw [ih (acc + c * f) v]
      simp [hw, lookup0, add_assoc]

/-- Characterization of the quadratic fold of `get_value`, in the same
style as the linear fold. -/
theorem get_valueMul_some_iff (w : WMap p) :
    ∀ (l : List (ZMod p × Witness × Witness)) (acc v : ZMod p),
      get_valueMul w acc l = some v ↔
        (∀ t ∈ l, (wget w t.2.1).isSome = true ∧ (wget w t.2.2).isSome = true) ∧
          v = acc + (l.map fun t => t.1 * lookup0 w t.2.1 * lookup0 w t.2.2).sum := by
  intro l
  induction l with
  | nil =>
    intro acc v
    simp only [get_valueMul]
    constructor
    · intro h
      injection h with h
      exact ⟨by simp, by simp [h]⟩
    · rintro ⟨-, hv⟩
      simp at hv
      rw [hv]
  | cons hd t ih =>
    intro acc v
    obtain ⟨c, u, vv⟩ := hd
    cases hu : wget w u with
    | none => simp [get_valueMul, hu]
    | some f =>
      cases hv : wget w vv with
      | none => simp [get_valueMul, hu, hv]
      | some g =>
        simp only [get_valueMul, hu, hv]
        rw [ih (acc + c * f * g) v]
        simp [hu, hv, lookup0, add_assoc]

/-- Within bounds, positional lookup in a list returns the default-free
element. -/
theorem get?_eq_some_getD (l : List Witness) (i : ℕ) (h : i < l.length) :
    l.get? i = some (l.getD i 0) := by
  rw [List.getD_eq_get?]
  cases hq : l.get? i with
  | none =>
    rw [List.get?_eq_none] at hq
    omega
  | some y => rfl

/-- Main lemma on the `ToBytes` assignment loop: starting at index `i`
with `k` indices to go, all in bounds, with the touched output witnesses
pairwise distinct and unassigned, the loop completes, assigns the
little-endian bytes, and leaves every other key untouched. -/
theorem toBytesGo_fresh (va : ZMod p) (b : List Witness) :
    ∀ (k i : ℕ) (w : WMap p),
      i + k ≤ b.length →
      i + k ≤ fieldByteLen p →
      (∀ j, i ≤ j → j < i + k → wget w (b.getD j 0) = none) →
      (∀ j1 j2, i ≤ j1 → j1 < i + k → i ≤ j2 → j2 < i + k →
        b.getD j1 0 = b.getD j2 0 → j1 = j2) →
      ∃ w', toBytesGo va b k i w = .ok w' ∧
        (∀ j, i ≤ j → j < i + k →
          wget w' (b.getD j 0) = some ((leByte va j : ℕ) : ZMod p)) ∧
        (∀ x, (∀ j, i ≤ j → j < i + k → x ≠ b.getD j 0) → wget w' x = wget w x) := by
  intro k
  induction k with
  | zero =>
    intro i w _ _ _ _
    refine ⟨w, rfl, ?_, ?_⟩
    · intro j h1 h2; omega
    · intro x _; rfl
  | succ k ih =>
    intro i w hlen hL hfresh hinj
    have hbg : b.get? i = some (b.getD i 0) := get?_eq_some_getD b i (by omega)
    have hiL : i < fieldByteLen p := by omega
    have hfi : wget w (b.getD i 0) = none := hfresh i le_rfl (by omega)
    have hne_later : ∀ j, i + 1 ≤ j → j < i + 1 + k → b.getD j 0 ≠ b.getD i 0 := by
      intro j h1 h2 he
      have := hinj j i (by omega) (by omega) (by omega) (by omega) he
      omega
    obtain ⟨w', hrun, hlook, hframe⟩ :=
      ih (i + 1) (winsert (b.getD i 0) ((leByte va i : ℕ) : ZMod p) w)
        (by omega) (by omega)
        (by
          intro j h1 h2
          rw [wget_winsert_ne _ _ _ (hne_later j h1 h2)]
          exact hfresh j (by omega) (by omega))
        (by
          intro j1 j2 a1 a2 a3 a4 he
          exact hinj j1 j2 (by omega) (by omega) (by omega) (by omega) he)
    refine ⟨w', ?_, ?_, ?_⟩
    · simp only [toBytesGo, hbg, hfi, if_pos hiL]
      exact hrun
    · intro j h1 h2
      by_cases hji : j = i
      · subst hji
        rw [hframe (b.getD j 0) (fun j' h1' h2' => (hne_later j' h1' h2').symm)]
        exact wget_winsert_self _ _ w
      · exact hlook j (by omega) (by omega)
    · intro x hx
      rw [hframe x (fun j h1 h2 => hx j (by omega) (by omega))]
      exact wget_winsert_ne _ _ _ (hx i le_rfl (by omega)) w

/-- Propagation of an early `return` out of a pass: once a prefix of the
gate list halts with a hard failure, appending further gates changes
neither the failure nor the witness map it carries. -/
theorem solve_pass_halt_append (B : Backend p) (e : GateResolution) (w' : WMap p)
    (gs2 : List (Gate p)) :
    ∀ (gs1 : List (Gate p)) (w : WMap p),
      solve_pass B w gs1 = .halt e w' → solve_pass B w (gs1 ++ gs2) = .halt e w' := by
  intro gs1
  induction gs1 with
  | nil => intro w h; simp [solve_pass] at h
  | cons g t ih =>
    intro w h
    simp only [List.cons_append, solve_pass] at h ⊢
    cases hg : solveGate B w g with
    | proceed unsolved w1 =>
      simp only [hg] at h ⊢
      cases hp : solve_pass B w1 t with
      | ok w2 rest => simp [hp] at h
      | halt r w2 =>
        simp only [hp] at h
        injection h with h1 h2
        subst h1
        subst h2
        simp [ih w1 hp]
      | abort w2 => simp [hp] at h
    | halt r w1 =>
      simp only [hg] at h ⊢
      exact h
    | abort w1 => simp [hg] at h

/-- C1: on a circuit whose only gate is an arithmetic gate referencing a
witness absent from the initial witness map (and never produced by
anything), `solve` does not terminate: every pass returns the identical
unsolved gate list and the recursion never reaches a result, for any
fuel bound.  The source has no stall detection and `GateResolution` has
no constructor for a stalled outcome, so the claimed `Stalled` report is
impossible. -/
theorem solve_diverges_on_stalled_circuit :
    ∀ fuel : ℕ,
      solveFuel (noBackend (p := 7)) fuel []
        [Gate.Arithmetic ⟨0, [(1, 1)], []⟩] = none := by
  intro fuel
  induction fuel with
  | zero => rfl
  | succ n ih =>
    have hpass :
        solve_pass (noBackend (p := 7)) [] [Gate.Arithmetic ⟨0, [(1, 1)], []⟩] =
          .ok [] [Gate.Arithmetic ⟨0, [(1, 1)], []⟩] := by decide
    simp only [solveFuel]
    rw [hpass]
    exact ih

/-- C2 counterexample: a `Truncate` directive whose low-bits output
witness is already assigned the value `0` silently overwrites it with
the freshly computed (different) value `1` and reports the gate solved,
instead of reporting `UnsatisfiedConstrain` as the claim states. -/
theorem directive_overwrite_counterexample :
    solveGate (noBackend (p := 7)) [(0, 5), (1, 0)]
        (Gate.Directive (Directive.Truncate 0 1 2 1)) =
      .proceed false [(0, 5), (1, 1), (2, 2)] ∧ (0 : ZMod 7) ≠ 1 := by
  decide

/-- C2 amended: only `Split` (and `ToBytes`) perform conflict checking —
an equal pre-assigned output is a no-op and a different pre-assigned
output yields `UnsatisfiedConstrain` — while `Invert` (like `Quotient`,
`Truncate` and `Oddrange`) inserts its result unconditionally, and
`winsert` at an existing key replaces the stored value. -/
theorem directive_overwrite_amended (B : Backend p) (w : WMap p) (x res b0 : Witness)
    (v va : ZMod p) (a : Expression p)
    (hx : wget w x = some v) (ha : get_value a w = some va) :
    solveGate B w (.Directive (.Invert x res)) = .proceed false (winsert res v⁻¹ w) ∧
      (∀ (v0 : ZMod p) (m : WMap p), wget (winsert res v0 m) res = some v0) ∧
      (∀ v' : ZMod p, wget w b0 = some v' →
        (v' = (if va.val.testBit 0 then 1 else 0) →
          solveGate B w (.Directive (.Split a [b0] 1)) = .proceed false w) ∧
        (v' ≠ (if va.val.testBit 0 then 1 else 0) →
          solveGate B w (.Directive (.Split a [b0] 1)) =
            .halt .UnsatisfiedConstrain w)) := by
  refine ⟨?_, ?_, ?_⟩
  · simp [solveGate, solveDirective, hx]
  · intro v0 m
    exact wget_winsert_self res v0 m
  · intro v' hb
    constructor
    · intro hveq
      simp [solveGate, solveDirective, ha, splitGo, hb, hveq]
    · intro hvne
      simp only [Nat.testBit_zero, decide_eq_true_eq] at hvne
      simp [solveGate, solveDirective, ha, splitGo, hb, hvne]

/-- C2 witness: concrete instance of the amended theorem, showing the
`Invert` directive writing over the pre-assigned output witness `1`. -/
theorem directive_overwrite_amended_witness :
    solveGate (noBackend (p := 7)) [(0, 2), (1, 5)]
        (.Directive (.Invert 0 1)) =
      .proceed false (winsert 1 (2 : ZMod 7)⁻¹ [(0, 2), (1, 5)]) :=
  (directive_overwrite_amended (noBackend (p := 7)) [(0, 2), (1, 5)] 0 1 0 2 0
    ⟨0, [], []⟩ (by decide) (by decide)).1

/-- C3 counterexample: with modulus `257` (a two-byte field), input
value `256` and `byte_size = 2`, the first declared output witness `10`
receives `0`, the least-significant byte, not the most-significant byte
`1` that the claim promises for `b[0]`. -/
theorem tobytes_order_counterexample :
    solveGate (noBackend (p := 257)) []
        (Gate.Directive (Directive.ToBytes ⟨256, [], []⟩ [10, 11] 2)) =
      .proceed false [(10, 0), (11, 1)] ∧ ((0 : ZMod 257) ≠ 1) := by
  decide

/-- C3 amended: `ToBytes` assigns the *little-endian* bytes of `a`'s
value in declared output order (witness `b[i]` receives byte `i` of the
little-endian representation, so `b[0]` holds the least-significant
byte), inserting fresh outputs and returning `UnsatisfiedConstrain` when
an output is already assigned a conflicting value when the loop reaches
it. -/
theorem tobytes_little_endian (B : Backend p) (w : WMap p) (a : Expression p)
    (b : List Witness) (s : ℕ) (va : ZMod p)
    (hval : get_value a w = some va) (hs : s ≤ b.length) (hL : s ≤ fieldByteLen p) :
    ((∀ j1 j2, j1 < s → j2 < s → b.getD j1 0 = b.getD j2 0 → j1 = j2) →
      (∀ j, j < s → wget w (b.getD j 0) = none) →
      ∃ w', solveGate B w (.Directive (.ToBytes a b s)) = .proceed false w' ∧
        ∀ j, j < s → wget w' (b.getD j 0) = some ((leByte va j : ℕ) : ZMod p)) ∧
      (∀ v', 0 < s → wget w (b.getD 0 0) = some v' →
        v' ≠ ((leByte va 0 : ℕ) : ZMod p) →
        solveGate B w (.Directive (.ToBytes a b s)) =
          .halt .UnsatisfiedConstrain w) := by
  constructor
  · intro hinj hfresh
    obtain ⟨w', hrun, hlook, -⟩ :=
      toBytesGo_fresh va b s 0 w (by omega) (by omega)
        (fun j _ h2 => hfresh j (by omega))
        (fun j1 j2 _ h1 _ h2 he => hinj j1 j2 (by omega) (by omega) he)
    refine ⟨w', ?_, ?_⟩
    · simp [solveGate, solveDirective, hval, hrun]
    · intro j hj
      exact hlook j (by omega) (by omega)
  · intro v' hs0 hb0 hne
    have hbg : b.get? 0 = some (b.getD 0 0) := get?_eq_some_getD b 0 (by omega)
    have hstep : toBytesGo va b s 0 w = .fail w := by
      cases s with
      | zero => omega
      | succ k =>
        simp only [toBytesGo, hbg, hb0, if_pos (by omega : 0 < fieldByteLen p)]
        rw [if_neg hne]
    simp [solveGate, solveDirective, hval, hstep]

/-- C3 witness: concrete instance with modulus 257, value 256 and two
fresh outputs, whose assigned bytes are the little-endian ones. -/
theorem tobytes_little_endian_witness :
    ∃ w', solveGate (noBackend (p := 257)) []
        (.Directive (.ToBytes ⟨256, [], []⟩ [10, 11] 2)) = .proceed false w' ∧
      ∀ j, j < 2 →
        wget w' ([10, 11].getD j 0) = some ((leByte (256 : ZMod 257) j : ℕ) : ZMod 257) :=
  (tobytes_little_endian (noBackend (p := 257)) [] ⟨256, [], []⟩ [10, 11] 2 256
    (by decide) (by decide) (by decide)).1
    (by intro j1 j2 h1 h2; interval_cases j1 <;> interval_cases j2 <;> decide)
    (fun j hj => rfl)

/-- C4 counterexample: `supports_gate` returns `false` for a plain
arithmetic gate under R1CS (the claim says arithmetic is natively
supported there) and `false` for a RANGE gadget call under the
parameterized PLONK dialect (the claim says RANGE is natively supported
there). -/
theorem supports_gate_counterexample :
    Language.supports_gate Language.R1CS
        (Gate.Arithmetic (⟨0, [], []⟩ : Expression 7)) = false ∧
      Language.supports_gate (Language.PLONKCSat 3)
        (Gate.GadgetCall ⟨OPCODE.RANGE, [⟨0, 3⟩], []⟩ : Gate 7) = false := by
  decide

/-- C4 amended: `supports_gate` returns `false` for every gate when the
language is R1CS (including plain arithmetic), and for the parameterized
PLONK dialect it returns `false` exactly on RANGE/AND/XOR gadget calls
and `true` on every other gate (other gadget calls, arithmetic gates and
directives). -/
theorem supports_gate_amended (g : Gate p) (width : ℕ) :
    Language.supports_gate Language.R1CS g = false ∧
      ((∃ gc, g = Gate.GadgetCall gc ∧
          (gc.name = OPCODE.RANGE ∨ gc.name = OPCODE.AND ∨ gc.name = OPCODE.XOR)) →
        Language.supports_gate (Language.PLONKCSat width) g = false) ∧
      ((∀ gc, g = Gate.GadgetCall gc →
          gc.name ≠ OPCODE.RANGE ∧ gc.name ≠ OPCODE.AND ∧ gc.name ≠ OPCODE.XOR) →
        Language.supports_gate (Language.PLONKCSat width) g = true) := by
  refine ⟨?_, ?_, ?_⟩
  · cases g <;> simp [Language.supports_gate]
  · rintro ⟨gc, rfl, hname⟩
    rcases hname with h | h | h <;> simp [Language.supports_gate, h]
  · intro hno
    cases g with
    | Arithmetic e => simp [Language.supports_gate]
    | Directive d => simp [Language.supports_gate]
    | GadgetCall gc =>
      obtain ⟨h1, h2, h3⟩ := hno gc rfl
      simp [Language.supports_gate, h1, h2, h3]

/-- C4 witness: a directive gate under the PLONK dialect is classified
`true` and every gate under R1CS is classified `false`. -/
theorem supports_gate_amended_witness :
    Language.supports_gate Language.R1CS
        (Gate.Directive (Directive.Invert 0 1) : Gate 7) = false ∧
      Language.supports_gate (Language.PLONKCSat 3)
        (Gate.Directive (Directive.Invert 0 1) : Gate 7) = true :=
  ⟨(supports_gate_amended (Gate.Directive (Directive.Invert 0 1) : Gate 7) 3).1,
    (supports_gate_amended (Gate.Directive (Directive.Invert 0 1) : Gate 7) 3).2.2
      (fun gc h => nomatch h)⟩

/-- C5: for a RANGE gadget call with its single declared input, when the
input witness is assigned `v` the gate resolves (staying resolved, map
untouched) exactly when the bit length of `v` is at most the declared
bound `n`, returns `UnsatisfiedConstrain` (map untouched) otherwise, and
when the input witness is unassigned the gate is deferred; the bit
length condition is equivalent to `v < 2 ^ n`.  In every case the
witness map is returned unchanged: RANGE never writes a witness. -/
theorem range_gate_spec (B : Backend p) (w : WMap p) (gc : GadgetCall) (x n : ℕ)
    (hname : gc.name = OPCODE.RANGE) (hin : gc.inputs = [⟨x, n⟩]) :
    (∀ v : ZMod p, wget w x = some v →
      (bitLen v.val ≤ n → solveGate B w (.GadgetCall gc) = .proceed false w) ∧
      (n < bitLen v.val →
        solveGate B w (.GadgetCall gc) = .halt .UnsatisfiedConstrain w)) ∧
      (wget w x = none → solveGate B w (.GadgetCall gc) = .proceed true w) ∧
      (∀ v : ZMod p, bitLen v.val ≤ n ↔ v.val < 2 ^ n) := by
  refine ⟨?_, ?_, fun v => bitLen_le_iff v.val n⟩
  · intro v hv
    constructor
    · intro hle
      simp [solveGate, hname, hin, hv, Nat.not_lt.mpr hle]
    · intro hlt
      simp [solveGate, hname, hin, hv, hlt]
  · intro hnone
    simp [solveGate, hname, hin, hnone]

/-- C5 witness: value 5 (bit length 3) passes a 3-bit range check with
the map unchanged. -/
theorem range_gate_spec_witness :
    solveGate (noBackend (p := 7)) [(0, 5)]
        (.GadgetCall ⟨OPCODE.RANGE, [⟨0, 3⟩], []⟩) = .proceed false [(0, 5)] :=
  ((range_gate_spec (noBackend (p := 7)) [(0, 5)] ⟨OPCODE.RANGE, [⟨0, 3⟩], []⟩ 0 3
    rfl rfl).1 5 (by decide)).1 (by decide)

/-- C6: a hard failure short-circuits everything: if a prefix of the
gate list makes the pass halt with resolution `e` and witness map `w'`,
then the pass over the full list halts identically (no later gate is
attempted) and the whole fuelled solve returns `e` with exactly that
map, for any fuel — the assignments made before the failure are kept,
with no rollback. -/
theorem hard_failure_short_circuits (B : Backend p) (w w' : WMap p)
    (e : GateResolution) (gs1 gs2 : List (Gate p))
    (h : solve_pass B w gs1 = .halt e w') :
    solve_pass B w (gs1 ++ gs2) = .halt e w' ∧
      ∀ fuel, solveFuel B (fuel + 1) w (gs1 ++ gs2) = some (.done e w') := by
  have h1 := solve_pass_halt_append B e w' gs2 gs1 w h
  refine ⟨h1, fun fuel => ?_⟩
  have hne : (gs1 ++ gs2).isEmpty = false := by
    cases gs1 with
    | nil => simp [solve_pass] at h
    | cons a t => simp
  simp only [solveFuel]
  rw [hne, h1]
  simp

/-- C6 witness: a truncate directive assigns witnesses 1 and 2, the next
arithmetic gate hard-fails, and the appended gate list still reports the
same failure with the mutated map, also through `solveFuel`. -/
theorem hard_failure_short_circuits_witness :
    solve_pass (noBackend (p := 7)) [(0, 5)]
        ([.Directive (.Truncate 0 1 2 1), .Arithmetic ⟨1, [], []⟩] ++
          [.Arithmetic ⟨0, [], []⟩]) =
      .halt .UnsatisfiedConstrain [(0, 5), (1, 1), (2, 2)] ∧
      solveFuel (noBackend (p := 7)) (3 + 1) [(0, 5)]
        ([.Directive (.Truncate 0 1 2 1), .Arithmetic ⟨1, [], []⟩] ++
          [.Arithmetic ⟨0, [], []⟩]) =
      some (.done .UnsatisfiedConstrain [(0, 5), (1, 1), (2, 2)]) :=
  ⟨(hard_failure_short_circuits (noBackend (p := 7)) [(0, 5)]
      [(0, 5), (1, 1), (2, 2)] .UnsatisfiedConstrain
      [.Directive (.Truncate 0 1 2 1), .Arithmetic ⟨1, [], []⟩]
      [.Arithmetic ⟨0, [], []⟩] (by decide)).1,
    (hard_failure_short_circuits (noBackend (p := 7)) [(0, 5)]
      [(0, 5), (1, 1), (2, 2)] .UnsatisfiedConstrain
      [.Directive (.Truncate 0 1 2 1), .Arithmetic ⟨1, [], []⟩]
      [.Arithmetic ⟨0, [], []⟩] (by decide)).2 3⟩

/-- C7: a `Truncate` directive with an assigned input `a = va` inserts
`b = va mod 2 ^ k` and then `c = (va - b) / 2 ^ k` (computed on the
exact integer value and reduced into the field), and the integer
reconstruction `c * 2 ^ k + b` gives back the value of `a` — which, the
value of a field element being below the modulus, covers every `a`
representable in the field. -/
theorem truncate_round_trip (B : Backend p) (w : WMap p) (a b c k : ℕ) (va : ZMod p)
    (ha : wget w a = some va) :
    solveGate B w (.Directive (.Truncate a b c k)) =
      .proceed false
        (winsert c (((va.val - va.val % 2 ^ k) / 2 ^ k : ℕ) : ZMod p)
          (winsert b ((va.val % 2 ^ k : ℕ) : ZMod p) w)) ∧
      (va.val - va.val % 2 ^ k) / 2 ^ k * 2 ^ k + va.val % 2 ^ k = va.val := by
  constructor
  · simp [solveGate, solveDirective, ha]
  · have h2 : 0 < 2 ^ k := pow_pos (by norm_num) k
    have hm := Nat.div_add_mod va.val (2 ^ k)
    have hsub : va.val - va.val % 2 ^ k = 2 ^ k * (va.val / 2 ^ k) := by omega
    rw [hsub, Nat.mul_div_cancel_left _ h2, Nat.mul_comm (va.val / 2 ^ k) (2 ^ k)]
    exact hm

/-- C7 witness: truncating the field value 5 to its single low bit. -/
theorem truncate_round_trip_witness :
    solveGate (noBackend (p := 7)) [(0, 5)] (.Directive (.Truncate 0 1 2 1)) =
      .proceed false
        (winsert 2 ((((5 : ZMod 7).val - (5 : ZMod 7).val % 2 ^ 1) / 2 ^ 1 : ℕ) : ZMod 7)
          (winsert 1 (((5 : ZMod 7).val % 2 ^ 1 : ℕ) : ZMod 7) [(0, 5)])) ∧
      ((5 : ZMod 7).val - (5 : ZMod 7).val % 2 ^ 1) / 2 ^ 1 * 2 ^ 1 +
          (5 : ZMod 7).val % 2 ^ 1 = (5 : ZMod 7).val :=
  truncate_round_trip (noBackend (p := 7)) [(0, 5)] 0 1 2 1 5 (by decide)

/-- C8: `get_value` returns a value exactly when every witness
referenced by a linear or mul term is present in the witness map, and
that value is the constant plus the sum of the linear terms plus the sum
of the quadratic terms; with any referenced witness missing it returns
`none` (no partial result), and being a pure function it cannot mutate
the map. -/
theorem get_value_spec (a : Expression p) (w : WMap p) (v : ZMod p) :
    get_value a w = some v ↔ allKnown a w ∧ v = exprSum a (lookup0 w) := by
  unfold get_value allKnown exprSum
  cases hl : get_valueLin w a.q_c a.linear_combinations with
  | none =>
    constructor
    · intro h
      simp at h
    · rintro ⟨⟨hlin, hmul⟩, hv⟩
      have hsome := (get_valueLin_some_iff w a.linear_combinations a.q_c _).mpr ⟨hlin, rfl⟩
      rw [hsome] at hl
      exact Option.noConfusion hl
  | some r1 =>
    obtain ⟨hlin, hr1⟩ := (get_valueLin_some_iff w a.linear_combinations a.q_c r1).mp hl
    change get_valueMul w r1 a.mul_terms = some v ↔ _
    rw [get_valueMul_some_iff w a.mul_terms r1 v]
    constructor
    · rintro ⟨hm, hv⟩
      refine ⟨⟨hlin, hm⟩, ?_⟩
      rw [hv, hr1]
    · rintro ⟨⟨-, hm⟩, hv⟩
      exact ⟨hm, by rw [hv, hr1]⟩

/-- C8 witness: a fully determined expression evaluates to its sum. -/
theorem get_value_spec_witness :
    get_value (⟨3, [(2, 0)], [(1, 0, 0)]⟩ : Expression 7) [(0, 2)] = some 4 :=
  (get_value_spec ⟨3, [(2, 0)], [(1, 0, 0)]⟩ [(0, 2)] 4).mpr ⟨by decide, by decide⟩

/-- C9: a RANGE gadget call whose input list length differs from the
opcode's fixed input size 1 makes `solve` return `UnknownError`; the
result does not depend on the witness map or the backend and the map is
returned untouched, so the detection precedes any witness lookup or
backend dispatch. -/
theorem range_arity_unknown_error (B : Backend p) (w : WMap p) (gc : GadgetCall)
    (hname : gc.name = OPCODE.RANGE) (hlen : gc.inputs.length ≠ 1) :
    solveGate B w (.GadgetCall gc) =
      .halt (.UnknownError "defined input size does not equal given input size") w := by
  cases hgi : gc.inputs with
  | nil => simp [solveGate, hname, hgi]
  | cons i1 t =>
    cases t with
    | nil =>
      rw [hgi] at hlen
      simp at hlen
    | cons i2 t2 => simp [solveGate, hname, hgi]

/-- C9 witness: a RANGE call with an empty input list yields the
`UnknownError`, map unchanged. -/
theorem range_arity_unknown_error_witness :
    solveGate (noBackend (p := 7)) [] (.GadgetCall ⟨OPCODE.RANGE, [], []⟩) =
      .halt (.UnknownError "defined input size does not equal given input size") [] :=
  range_arity_unknown_error (noBackend (p := 7)) [] ⟨OPCODE.RANGE, [], []⟩ rfl (by decide)

/-- C10: with both operands of a `Quotient` directive evaluable and the
(defaulted) predicate evaluable and nonzero, a zero divisor makes the
unguarded big-integer division panic (`abort`) instead of producing any
`GateResolution`; with a nonzero divisor the quotient and remainder are
inserted, and with a zero predicate both outputs are forced to zero with
no division performed. -/
theorem quotient_zero_divisor_panics (B : Backend p) (w : WMap p) (a b : Expression p)
    (q r : Witness) (predicate : Option (Expression p)) (va vb pv : ZMod p)
    (ha : get_value a w = some va) (hb : get_value b w = some vb)
    (hp : get_value (predicate.getD Expression.one) w = some pv) :
    (pv ≠ 0 → vb.val = 0 →
      solveGate B w (.Directive (.Quotient a b q r predicate)) = .abort w) ∧
      (pv ≠ 0 → vb.val ≠ 0 →
        solveGate B w (.Directive (.Quotient a b q r predicate)) =
          .proceed false
            (winsert r ((va.val % vb.val : ℕ) : ZMod p)
              (winsert q ((va.val / vb.val : ℕ) : ZMod p) w))) ∧
      (pv = 0 →
        solveGate B w (.Directive (.Quotient a b q r predicate)) =
          .proceed false
            (winsert r ((0 : ℕ) : ZMod p) (winsert q ((0 : ℕ) : ZMod p) w))) := by
  refine ⟨?_, ?_, ?_⟩
  · intro hpnz hz
    simp [solveGate, solveDirective, ha, hb, hp, hpnz, hz]
  · intro hpnz hnz
    simp [solveGate, solveDirective, ha, hb, hp, hpnz, hnz]
  · intro hpz
    simp [solveGate, solveDirective, ha, hb, hp, hpz]

/-- C10 witness: dividing 5 by the constant-zero expression with the
default predicate (one) aborts. -/
theorem quotient_zero_divisor_panics_witness :
    solveGate (noBackend (p := 7)) []
        (.Directive (.Quotient ⟨5, [], []⟩ ⟨0, [], []⟩ 2 3 none)) = .abort [] :=
  (quotient_zero_divisor_panics (noBackend (p := 7)) [] ⟨5, [], []⟩ ⟨0, [], []⟩ 2 3 none
    5 0 1 (by decide) (by decide) (by decide)).1 (by decide) (by decide)

end Acvm
